import Mathlib

/-!
Verification of the spectral core of GeometricKernels: the `Circle` space with
its `SinCosEigenfunctions` basis (src/geometric_kernels/spaces/circle.py) and
the `Graph` space with its memoized eigensystem cache
(src/geometric_kernels/spaces/graph.py).

The circle code is embedded over `ℝ`, with batches of polar angles as lists
and 2-D/3-D arrays as nested lists, mirroring the numpy/eagerpy broadcasting
of the source.  The graph code is embedded with an explicit cache state and an
abstract eigensolver, with numeric entries in `ℚ`.
-/

namespace GeometricKernels

/-! ## Circle: `SinCosEigenfunctions` (circle.py) -/

/-- `self._num_levels = num_eigenfunctions // 2 + 1` (circle.py line 33). -/
def numLevels (num : ℕ) : ℕ := num / 2 + 1

/-- `num_eigenfunctions_per_level`: `[1 if level == 0 else 2 for level in
range(self.num_levels)]` (circle.py line 114). -/
def numEigenfunctionsPerLevel (num : ℕ) : List ℕ :=
  (List.range (numLevels num)).map fun level => if level = 0 then 1 else 2

/-- The per-level multiplicity `N_l`: 1 for level 0, else 2. -/
def perLevelMult (l : ℕ) : ℕ := if l = 0 then 1 else 2

/-- The block of basis-function values one `level` contributes in
`SinCosEigenfunctions.__call__`: `[1]` for level 0, else
`[sqrt 2 * cos(level * θ), sqrt 2 * sin(level * θ)]` (circle.py lines 43-49,
with `const = 2.0 ** 0.5` and `freq = 1.0 * level`). -/
noncomputable def sinCosBlock (θ : ℝ) (level : ℕ) : List ℝ :=
  if level = 0 then [1]
  else [Real.sqrt 2 * Real.cos (level * θ), Real.sqrt 2 * Real.sin (level * θ)]

/-- One row of `SinCosEigenfunctions.__call__`: the per-level blocks for
`level in range(L)` concatenated along the function axis (circle.py line 51). -/
noncomputable def sinCosRow (L : ℕ) (θ : ℝ) : List ℝ :=
  (List.range L).flatMap (sinCosBlock θ)

/-- `SinCosEigenfunctions.__call__` on a batch `X` of polar angles:
the `[N, M]` matrix whose row for point `θ` is `sinCosRow` (circle.py
lines 35-51; the basis has `numLevels num` levels). -/
noncomputable def sinCosEvaluate (num : ℕ) (X : List ℝ) : List (List ℝ) :=
  X.map (sinCosRow (numLevels num))

/-- `SinCosEigenfunctions._addition_theorem` (circle.py lines 53-80):
`values[n, n2, l] = N_l * cos(l * (θ₁ - θ₂))`, computed by broadcasting the
pairwise angle difference against the level frequencies and multiplying by
`num_eigenfunctions_per_level`. -/
noncomputable def additionTheorem (num : ℕ) (X X2 : List ℝ) : List (List (List ℝ)) :=
  X.map fun θ1 => X2.map fun θ2 =>
    (List.range (numLevels num)).map fun l =>
      (perLevelMult l : ℝ) * Real.cos (l * (θ1 - θ2))

/-- `SinCosEigenfunctions._addition_theorem_diag` (circle.py lines 82-94):
`ones (N, L)` times the broadcast `num_eigenfunctions_per_level`, i.e. the
`[N, L]` array whose every row is the multiplicity vector. -/
noncomputable def additionTheoremDiag (num : ℕ) (X : List ℝ) : List (List ℝ) :=
  X.map fun _ => (List.range (numLevels num)).map fun l => (perLevelMult l : ℝ)

/-- The columns of the evaluated basis belonging to level `l`: column 0 for
level 0, columns `2l-1` (cos) and `2l` (sin) for level `l ≥ 1`.  This is the
level-major order in which `__call__` emits the basis functions. -/
def levelColumns (l : ℕ) : List ℕ := if l = 0 then [0] else [2 * l - 1, 2 * l]

/-- The brute-force per-level sum `Σ_{m in level l} evaluate(X)[:,m] *
evaluate(X2)[:,m]` at a single pair of points, reading the factors off the
rows produced by `SinCosEigenfunctions.__call__`. -/
noncomputable def bruteForceLevelSum (L l : ℕ) (θ1 θ2 : ℝ) : ℝ :=
  ((levelColumns l).map fun m => (sinCosRow L θ1).getD m 0 * (sinCosRow L θ2).getD m 0).sum

/-- Modelled from the spec: `chain` (geometric_kernels.utils, not under src/)
expands a per-level vector by "repeating each level's eigenvalue according to
its multiplicity" in level order (spec §4.3). -/
def chain (values : List ℝ) (mults : List ℕ) : List ℝ :=
  (values.zip mults).flatMap fun p => List.replicate p.2 p.1

/-- `Circle.get_eigenvalues` (circle.py lines 154-165): the per-level
eigenvalues `l²` for `l in range(L)` expanded by `chain` along
`num_eigenfunctions_per_level` and reshaped to a `[num, 1]` column. -/
def circleGetEigenvalues (num : ℕ) : List (List ℝ) :=
  (chain ((List.range (numLevels num)).map fun l : ℕ => (l : ℝ) ^ 2)
      (numEigenfunctionsPerLevel num)).map fun v => [v]

/-- `SinCosEigenfunctions.__init__` (circle.py lines 25-33): asserts
`num_eigenfunctions % 2 == 1` and then `num_eigenfunctions >= 1` (Python's
`%` on a positive modulus is the Euclidean remainder, as is Lean's `Int.emod`).
Returns the accepted value. -/
def sinCosInit (num : ℤ) : Except String ℤ :=
  if num % 2 ≠ 1 then
    .error "num_eigenfunctions needs to be odd to include all eigenfunctions within a level."
  else if ¬ 1 ≤ num then
    .error "assert num_eigenfunctions >= 1"
  else
    .ok num

/-! ### Structural lemmas about `sinCosRow` -/

theorem sinCosRow_succ (L : ℕ) (θ : ℝ) :
    sinCosRow (L + 1) θ = sinCosRow L θ ++ sinCosBlock θ L := by
  simp [sinCosRow, List.range_succ]

theorem sinCosBlock_length (θ : ℝ) (level : ℕ) :
    (sinCosBlock θ level).length = perLevelMult level := by
  by_cases h : level = 0 <;> simp [sinCosBlock, perLevelMult, h]

theorem sinCosRow_length (L : ℕ) (θ : ℝ) (hL : 0 < L) :
    (sinCosRow L θ).length = 2 * L - 1 := by
  induction L with
  | zero => omega
  | succ n ih =>
    rw [sinCosRow_succ, List.length_append, sinCosBlock_length]
    rcases Nat.eq_zero_or_pos n with h0 | hp
    · subst h0; simp [sinCosRow, perLevelMult]
    · have hn : n ≠ 0 := Nat.pos_iff_ne_zero.mp hp
      rw [ih hp]
      simp only [perLevelMult, hn, if_false]
      omega

theorem sinCosRow_getD_zero (L : ℕ) (θ : ℝ) (hL : 0 < L) :
    (sinCosRow L θ).getD 0 0 = 1 := by
  induction L with
  | zero => omega
  | succ n ih =>
    rw [sinCosRow_succ]
    rcases Nat.eq_zero_or_pos n with h0 | hp
    · subst h0; simp [sinCosRow, sinCosBlock]
    · have hlen : 0 < (sinCosRow n θ).length := by rw [sinCosRow_length n θ hp]; omega
      rw [List.getD_eq_getElem?_getD, List.getElem?_append_left hlen,
        ← List.getD_eq_getElem?_getD]
      exact ih hp

theorem sinCosRow_getD_cos (L l : ℕ) (θ : ℝ) (hl : 1 ≤ l) (hL : l < L) :
    (sinCosRow L θ).getD (2 * l - 1) 0 = Real.sqrt 2 * Real.cos (l * θ) := by
  induction L with
  | zero => omega
  | succ n ih =>
    rw [sinCosRow_succ]
    rcases Nat.lt_or_ge l n with hlt | hge
    · have hlen : 2 * l - 1 < (sinCosRow n θ).length := by
        rw [sinCosRow_length n θ (by omega)]; omega
      rw [List.getD_eq_getElem?_getD, List.getElem?_append_left hlen,
        ← List.getD_eq_getElem?_getD]
      exact ih hlt
    · have hln : l = n := by omega
      subst hln
      have hlen : (sinCosRow l θ).length = 2 * l - 1 := sinCosRow_length l θ (by omega)
      rw [List.getD_eq_getElem?_getD, List.getElem?_append_right (by omega),
        hlen, Nat.sub_self, ← List.getD_eq_getElem?_getD]
      have hne : l ≠ 0 := by omega
      simp [sinCosBlock, hne]

theorem sinCosRow_getD_sin (L l : ℕ) (θ : ℝ) (hl : 1 ≤ l) (hL : l < L) :
    (sinCosRow L θ).getD (2 * l) 0 = Real.sqrt 2 * Real.sin (l * θ) := by
  induction L with
  | zero => omega
  | succ n ih =>
    rw [sinCosRow_succ]
    rcases Nat.lt_or_ge l n with hlt | hge
    · have hlen : 2 * l < (sinCosRow n θ).length := by
        rw [sinCosRow_length n θ (by omega)]; omega
      rw [List.getD_eq_getElem?_getD, List.getElem?_append_left hlen,
        ← List.getD_eq_getElem?_getD]
      exact ih hlt
    · have hln : l = n := by omega
      subst hln
      have hlen : (sinCosRow l θ).length = 2 * l - 1 := sinCosRow_length l θ (by omega)
      have hidx : 2 * l - (sinCosRow l θ).length = 1 := by omega
      rw [List.getD_eq_getElem?_getD, List.getElem?_append_right (by omega),
        hidx, ← List.getD_eq_getElem?_getD]
      have hne : l ≠ 0 := by omega
      simp [sinCosBlock, hne]

theorem getD_map_of_lt {α β : Type} (f : α → β) (X : List α) (n : ℕ) (d : α) (d' : β)
    (hn : n < X.length) : (X.map f).getD n d' = f (X.getD n d) := by
  rw [List.getD_eq_getElem?_getD, List.getElem?_map, List.getElem?_eq_getElem hn,
    List.getD_eq_getElem?_getD, List.getElem?_eq_getElem hn]
  rfl

theorem sinCosRow_length_odd (num : ℕ) (hodd : num % 2 = 1) (θ : ℝ) :
    (sinCosRow (numLevels num) θ).length = num := by
  rw [sinCosRow_length (numLevels num) θ (by simp [numLevels])]
  simp only [numLevels]
  omega

/-- **C2.** For a `SinCosEigenfunctions` basis with odd `num = 2L+1`,
`__call__` yields rows of exactly `num` values in level-major order:
column 0 is constantly 1 and, for each level `l ≥ 1`, column `2l-1` is
`√2·cos(lθ)` and column `2l` is `√2·sin(lθ)`; in particular `num = 5`
evaluated at `θ = 0` gives the row `[1, √2, 0, √2, 0]`. -/
theorem circle_evaluate_columns (num : ℕ) (hodd : num % 2 = 1)
    (X : List ℝ) (n : ℕ) (hn : n < X.length) :
    ((sinCosEvaluate num X).getD n []).length = num ∧
    ((sinCosEvaluate num X).getD n []).getD 0 0 = 1 ∧
    (∀ l, 1 ≤ l → l ≤ num / 2 →
      ((sinCosEvaluate num X).getD n []).getD (2 * l - 1) 0 =
        Real.sqrt 2 * Real.cos (l * X.getD n 0) ∧
      ((sinCosEvaluate num X).getD n []).getD (2 * l) 0 =
        Real.sqrt 2 * Real.sin (l * X.getD n 0)) ∧
    sinCosEvaluate 5 [(0 : ℝ)] = [[1, Real.sqrt 2, 0, Real.sqrt 2, 0]] := by
  have hrow : (sinCosEvaluate num X).getD n [] = sinCosRow (numLevels num) (X.getD n 0) :=
    getD_map_of_lt _ X n 0 [] hn
  refine ⟨?_, ?_, ?_, ?_⟩
  · rw [hrow]; exact sinCosRow_length_odd num hodd _
  · rw [hrow]; exact sinCosRow_getD_zero _ _ (by simp [numLevels])
  · intro l hl1 hl2
    have hlL : l < numLevels num := by simp only [numLevels]; omega
    rw [hrow]
    exact ⟨sinCosRow_getD_cos _ l _ hl1 hlL, sinCosRow_getD_sin _ l _ hl1 hlL⟩
  · have h3 : numLevels 5 = 3 := by simp [numLevels]
    simp only [sinCosEvaluate, List.map, h3]
    show [sinCosRow 3 0] = _
    have : sinCosRow 3 0 = sinCosBlock 0 0 ++ (sinCosBlock 0 1 ++ sinCosBlock 0 2) := by
      simp [sinCosRow, List.range_succ]
    rw [this]
    norm_num [sinCosBlock]

/-- Witness for `circle_evaluate_columns` at `num = 5`, `X = [0]`, `n = 0`. -/
theorem circle_evaluate_columns_witness :
    5 % 2 = 1 ∧ 0 < [(0 : ℝ)].length ∧
      (((sinCosEvaluate 5 [(0 : ℝ)]).getD 0 []).length = 5 ∧
      ((sinCosEvaluate 5 [(0 : ℝ)]).getD 0 []).getD 0 0 = 1 ∧
      (∀ l, 1 ≤ l → l ≤ 5 / 2 →
        ((sinCosEvaluate 5 [(0 : ℝ)]).getD 0 []).getD (2 * l - 1) 0 =
          Real.sqrt 2 * Real.cos (l * ([(0 : ℝ)].getD 0 0)) ∧
        ((sinCosEvaluate 5 [(0 : ℝ)]).getD 0 []).getD (2 * l) 0 =
          Real.sqrt 2 * Real.sin (l * ([(0 : ℝ)].getD 0 0))) ∧
      sinCosEvaluate 5 [(0 : ℝ)] = [[1, Real.sqrt 2, 0, Real.sqrt 2, 0]]) :=
  ⟨by norm_num, by norm_num, circle_evaluate_columns 5 (by norm_num) [(0 : ℝ)] 0 (by norm_num)⟩

theorem perLevel_sum_aux (k : ℕ) :
    (((List.range (k + 1)).map fun level => if level = 0 then 1 else 2).sum) = 2 * k + 1 := by
  induction k with
  | zero => rfl
  | succ m ih =>
    rw [List.range_succ, List.map_append, List.sum_append, ih]
    simp
    omega

theorem numEigenfunctionsPerLevel_sum (m : ℕ) :
    (numEigenfunctionsPerLevel m).sum = 2 * (m / 2) + 1 := by
  simp only [numEigenfunctionsPerLevel, numLevels]
  exact perLevel_sum_aux (m / 2)

/-- **C7.** `SinCosEigenfunctions.__init__` rejects every even
`num_eigenfunctions` and every `num_eigenfunctions < 1` with an
assertion-style error; every accepted `num` is odd and at least 1, and the
per-level multiplicities `[1, 2, 2, ...]` over `num // 2 + 1` levels sum
exactly to `num`. -/
theorem sinCos_init_checks (num : ℤ) :
    (num % 2 = 0 →
      sinCosInit num =
        .error "num_eigenfunctions needs to be odd to include all eigenfunctions within a level.") ∧
    (num < 1 → ∃ e, sinCosInit num = .error e) ∧
    (∀ v, sinCosInit num = .ok v →
      num % 2 = 1 ∧ 1 ≤ num ∧ v = num ∧
      (numEigenfunctionsPerLevel num.toNat).length = num.toNat / 2 + 1 ∧
      (numEigenfunctionsPerLevel num.toNat).sum = num.toNat) := by
  refine ⟨?_, ?_, ?_⟩
  · intro heven
    have h : ¬ num % 2 = 1 := by omega
    simp [sinCosInit, h]
  · intro hlt
    by_cases h : num % 2 = 1
    · exact ⟨"assert num_eigenfunctions >= 1",
        by simp [sinCosInit, h, show ¬ (1:ℤ) ≤ num by omega]⟩
    · exact ⟨"num_eigenfunctions needs to be odd to include all eigenfunctions within a level.",
        by simp [sinCosInit, h]⟩
  · intro v hok
    by_cases h : num % 2 = 1
    · by_cases h1 : 1 ≤ num
      · have hv : v = num := by
          have h2 := hok
          simp [sinCosInit, h, h1] at h2
          exact h2.symm
        refine ⟨h, h1, hv, ?_, ?_⟩
        · simp [numEigenfunctionsPerLevel, numLevels]
        · rw [numEigenfunctionsPerLevel_sum]
          omega
      · simp [sinCosInit, h, h1] at hok
    · simp [sinCosInit, h] at hok

/-- Witness for `sinCos_init_checks`: the accepted branch at `num = 5` and the
rejecting branches at `num = 4` and `num = -3`. -/
theorem sinCos_init_checks_witness :
    ((5 : ℤ) % 2 = 1 ∧ 1 ≤ (5 : ℤ) ∧ (5 : ℤ) = 5 ∧
      (numEigenfunctionsPerLevel (5 : ℤ).toNat).length = (5 : ℤ).toNat / 2 + 1 ∧
      (numEigenfunctionsPerLevel (5 : ℤ).toNat).sum = (5 : ℤ).toNat) ∧
    sinCosInit 4 =
      .error "num_eigenfunctions needs to be odd to include all eigenfunctions within a level." ∧
    (∃ e, sinCosInit (-3) = .error e) :=
  ⟨(sinCos_init_checks 5).2.2 5 rfl,
   (sinCos_init_checks 4).1 (by decide),
   (sinCos_init_checks (-3)).2.1 (by decide)⟩

/-- **C1.** For every `SinCosEigenfunctions` basis with odd
`num_eigenfunctions` and all batches `X`, `X2`, the `[n, n2, l]` entry of
`_addition_theorem(X, X2)` equals the brute-force sum over level `l`'s basis
functions `Σ_{m in level l} evaluate(X)[:,m] × evaluate(X2)[:,m]`, i.e.
`N_l·cos(l(θ₁−θ₂))` equals the sum of products of the level's
constant/cos/sin columns. -/
theorem addition_theorem_matches_bruteforce (num : ℕ) (hodd : num % 2 = 1)
    (X X2 : List ℝ) (n n2 l : ℕ)
    (hn : n < X.length) (hn2 : n2 < X2.length) (hl : l < numLevels num) :
    (((additionTheorem num X X2).getD n []).getD n2 []).getD l 0 =
      bruteForceLevelSum (numLevels num) l (X.getD n 0) (X2.getD n2 0) := by
  set θ1 := X.getD n 0 with hθ1
  set θ2 := X2.getD n2 0 with hθ2
  have h1 : (additionTheorem num X X2).getD n [] =
      X2.map fun t2 => (List.range (numLevels num)).map fun j =>
        (perLevelMult j : ℝ) * Real.cos (j * (θ1 - t2)) := by
    simp only [additionTheorem]
    exact getD_map_of_lt _ X n 0 [] hn
  have h2 : ((additionTheorem num X X2).getD n []).getD n2 [] =
      (List.range (numLevels num)).map fun j =>
        (perLevelMult j : ℝ) * Real.cos (j * (θ1 - θ2)) := by
    rw [h1]
    exact getD_map_of_lt _ X2 n2 0 [] hn2
  have hlR : l < (List.range (numLevels num)).length := by simpa using hl
  have h4 : (List.range (numLevels num)).getD l 0 = l := by
    rw [List.getD_eq_getElem?_getD, List.getElem?_range hl]
    rfl
  have h3 : (((additionTheorem num X X2).getD n []).getD n2 []).getD l 0 =
      (perLevelMult l : ℝ) * Real.cos (l * (θ1 - θ2)) := by
    rw [h2, getD_map_of_lt _ _ l 0 0 hlR, h4]
  rw [h3]
  rcases Nat.eq_zero_or_pos l with h0 | hp
  · subst h0
    have hz1 := sinCosRow_getD_zero (numLevels num) θ1 (by simp [numLevels])
    have hz2 := sinCosRow_getD_zero (numLevels num) θ2 (by simp [numLevels])
    have hcols : levelColumns 0 = [0] := rfl
    simp only [bruteForceLevelSum, hcols, List.map_cons, List.map_nil,
      List.sum_cons, List.sum_nil]
    rw [hz1, hz2]
    simp [perLevelMult]
  · have hne : l ≠ 0 := by omega
    have hc1 := sinCosRow_getD_cos (numLevels num) l θ1 hp hl
    have hc2 := sinCosRow_getD_cos (numLevels num) l θ2 hp hl
    have hs1 := sinCosRow_getD_sin (numLevels num) l θ1 hp hl
    have hs2 := sinCosRow_getD_sin (numLevels num) l θ2 hp hl
    simp only [bruteForceLevelSum, levelColumns, hne, if_false, List.map_cons,
      List.map_nil, List.sum_cons, List.sum_nil]
    rw [hc1, hc2, hs1, hs2]
    have h2s : Real.sqrt 2 * Real.sqrt 2 = 2 := Real.mul_self_sqrt (by norm_num)
    have hcos : Real.cos ((l : ℝ) * (θ1 - θ2)) =
        Real.cos ((l : ℝ) * θ1) * Real.cos ((l : ℝ) * θ2) +
          Real.sin ((l : ℝ) * θ1) * Real.sin ((l : ℝ) * θ2) := by
      rw [show (l : ℝ) * (θ1 - θ2) = (l : ℝ) * θ1 - (l : ℝ) * θ2 by ring, Real.cos_sub]
    rw [hcos]
    simp only [perLevelMult, hne, if_false]
    push_cast
    linear_combination (-(Real.cos ((l : ℝ) * θ1) * Real.cos ((l : ℝ) * θ2) +
      Real.sin ((l : ℝ) * θ1) * Real.sin ((l : ℝ) * θ2))) * h2s

/-- Witness for `addition_theorem_matches_bruteforce` at `num = 3`,
`X = X2 = [0]`, `n = n2 = 0`, `l = 1`. -/
theorem addition_theorem_matches_bruteforce_witness :
    3 % 2 = 1 ∧ 1 < numLevels 3 ∧
    (((additionTheorem 3 [(0 : ℝ)] [(0 : ℝ)]).getD 0 []).getD 0 []).getD 1 0 =
      bruteForceLevelSum (numLevels 3) 1 ([(0 : ℝ)].getD 0 0) ([(0 : ℝ)].getD 0 0) :=
  ⟨by norm_num, by decide,
   addition_theorem_matches_bruteforce 3 (by norm_num) [(0 : ℝ)] [(0 : ℝ)] 0 0 1
     (by norm_num) (by norm_num) (by decide)⟩

/-- **C8.** `_addition_theorem_diag(X)` is an `[N, L]` array whose `[n, l]`
entry is the point-independent constant `N_l` (1 for level 0, 2 otherwise),
and this equals the `[n, n, l]` diagonal entry of `_addition_theorem(X, X)`
for every level `l`. -/
theorem addition_theorem_diag_spec (num : ℕ) (X : List ℝ) (n l : ℕ)
    (hn : n < X.length) (hl : l < numLevels num) :
    (additionTheoremDiag num X).length = X.length ∧
    ((additionTheoremDiag num X).getD n []).length = numLevels num ∧
    ((additionTheoremDiag num X).getD n []).getD l 0 = (perLevelMult l : ℝ) ∧
    ((additionTheoremDiag num X).getD n []).getD l 0 =
      (((additionTheorem num X X).getD n []).getD n []).getD l 0 := by
  have hrow : (additionTheoremDiag num X).getD n [] =
      (List.range (numLevels num)).map fun j => (perLevelMult j : ℝ) := by
    simp only [additionTheoremDiag]
    exact getD_map_of_lt _ X n 0 [] hn
  have hlR : l < (List.range (numLevels num)).length := by simpa using hl
  have h4 : (List.range (numLevels num)).getD l 0 = l := by
    rw [List.getD_eq_getElem?_getD, List.getElem?_range hl]
    rfl
  have hdiag : ((additionTheoremDiag num X).getD n []).getD l 0 = (perLevelMult l : ℝ) := by
    rw [hrow, getD_map_of_lt _ _ l 0 0 hlR, h4]
  refine ⟨by simp [additionTheoremDiag], by rw [hrow]; simp, hdiag, ?_⟩
  have h1 : (additionTheorem num X X).getD n [] =
      X.map fun t2 => (List.range (numLevels num)).map fun j =>
        (perLevelMult j : ℝ) * Real.cos (j * (X.getD n 0 - t2)) := by
    simp only [additionTheorem]
    exact getD_map_of_lt _ X n 0 [] hn
  have h2 : ((additionTheorem num X X).getD n []).getD n [] =
      (List.range (numLevels num)).map fun j =>
        (perLevelMult j : ℝ) * Real.cos (j * (X.getD n 0 - X.getD n 0)) := by
    rw [h1]
    exact getD_map_of_lt _ X n 0 [] hn
  have h3 : (((additionTheorem num X X).getD n []).getD n []).getD l 0 =
      (perLevelMult l : ℝ) * Real.cos (l * (X.getD n 0 - X.getD n 0)) := by
    rw [h2, getD_map_of_lt _ _ l 0 0 hlR, h4]
  rw [hdiag, h3, sub_self, mul_zero, Real.cos_zero, mul_one]

/-- Witness for `addition_theorem_diag_spec` at `num = 3`, `X = [0]`,
`n = 0`, `l = 1`. -/
theorem addition_theorem_diag_spec_witness :
    0 < [(0 : ℝ)].length ∧ 1 < numLevels 3 ∧
    ((additionTheoremDiag 3 [(0 : ℝ)]).length = [(0 : ℝ)].length ∧
    ((additionTheoremDiag 3 [(0 : ℝ)]).getD 0 []).length = numLevels 3 ∧
    ((additionTheoremDiag 3 [(0 : ℝ)]).getD 0 []).getD 1 0 = (perLevelMult 1 : ℝ) ∧
    ((additionTheoremDiag 3 [(0 : ℝ)]).getD 0 []).getD 1 0 =
      (((additionTheorem 3 [(0 : ℝ)] [(0 : ℝ)]).getD 0 []).getD 0 []).getD 1 0) :=
  ⟨by norm_num, by decide,
   addition_theorem_diag_spec 3 [(0 : ℝ)] 0 1 (by norm_num) (by decide)⟩

/-- The block of eigenvalues level `l` contributes to
`Circle.get_eigenvalues`: the level eigenvalue `l²` repeated once per
eigenfunction of the level. -/
def eigBlock (l : ℕ) : List ℝ := List.replicate (perLevelMult l) ((l : ℝ) ^ 2)

/-- The flat (pre-reshape) eigenvalue vector of `Circle.get_eigenvalues`:
the per-level blocks concatenated in level order. -/
def eigsFlat (L : ℕ) : List ℝ := (List.range L).flatMap eigBlock

theorem circleGetEigenvalues_eq (num : ℕ) :
    circleGetEigenvalues num = (eigsFlat (numLevels num)).map fun v => [v] := by
  have h : chain ((List.range (numLevels num)).map fun l : ℕ => (l : ℝ) ^ 2)
      ((List.range (numLevels num)).map fun level => if level = 0 then 1 else 2) =
      (List.range (numLevels num)).flatMap fun l : ℕ =>
        List.replicate (if l = 0 then 1 else 2) ((l : ℝ) ^ 2) := by
    rw [chain, List.zip_map']
    rw [List.flatMap_map]
  simp only [circleGetEigenvalues, numEigenfunctionsPerLevel, h]
  rfl

theorem eigsFlat_succ (L : ℕ) : eigsFlat (L + 1) = eigsFlat L ++ eigBlock L := by
  simp [eigsFlat, List.range_succ]

theorem eigBlock_length (l : ℕ) : (eigBlock l).length = perLevelMult l := by
  simp [eigBlock]

theorem eigsFlat_length (L : ℕ) (hL : 0 < L) : (eigsFlat L).length = 2 * L - 1 := by
  induction L with
  | zero => omega
  | succ n ih =>
    rw [eigsFlat_succ, List.length_append, eigBlock_length]
    rcases Nat.eq_zero_or_pos n with h0 | hp
    · subst h0; simp [eigsFlat, perLevelMult]
    · have hn : n ≠ 0 := Nat.pos_iff_ne_zero.mp hp
      rw [ih hp]
      simp only [perLevelMult, hn, if_false]
      omega

theorem eigsFlat_getD_zero (L : ℕ) (hL : 0 < L) : (eigsFlat L).getD 0 0 = 0 := by
  induction L with
  | zero => omega
  | succ n ih =>
    rw [eigsFlat_succ]
    rcases Nat.eq_zero_or_pos n with h0 | hp
    · subst h0; simp [eigsFlat, eigBlock, perLevelMult]
    · have hlen : 0 < (eigsFlat n).length := by rw [eigsFlat_length n hp]; omega
      rw [List.getD_eq_getElem?_getD, List.getElem?_append_left hlen,
        ← List.getD_eq_getElem?_getD]
      exact ih hp

theorem eigsFlat_getD_fst (L l : ℕ) (hl : 1 ≤ l) (hL : l < L) :
    (eigsFlat L).getD (2 * l - 1) 0 = (l : ℝ) ^ 2 := by
  induction L with
  | zero => omega
  | succ n ih =>
    rw [eigsFlat_succ]
    rcases Nat.lt_or_ge l n with hlt | hge
    · have hlen : 2 * l - 1 < (eigsFlat n).length := by
        rw [eigsFlat_length n (by omega)]; omega
      rw [List.getD_eq_getElem?_getD, List.getElem?_append_left hlen,
        ← List.getD_eq_getElem?_getD]
      exact ih hlt
    · have hln : l = n := by omega
      subst hln
      have hlen : (eigsFlat l).length = 2 * l - 1 := eigsFlat_length l (by omega)
      rw [List.getD_eq_getElem?_getD, List.getElem?_append_right (by omega),
        hlen, Nat.sub_self, ← List.getD_eq_getElem?_getD]
      have hne : l ≠ 0 := by omega
      simp [eigBlock, perLevelMult, hne]

theorem eigsFlat_getD_snd (L l : ℕ) (hl : 1 ≤ l) (hL : l < L) :
    (eigsFlat L).getD (2 * l) 0 = (l : ℝ) ^ 2 := by
  induction L with
  | zero => omega
  | succ n ih =>
    rw [eigsFlat_succ]
    rcases Nat.lt_or_ge l n with hlt | hge
    · have hlen : 2 * l < (eigsFlat n).length := by
        rw [eigsFlat_length n (by omega)]; omega
      rw [List.getD_eq_getElem?_getD, List.getElem?_append_left hlen,
        ← List.getD_eq_getElem?_getD]
      exact ih hlt
    · have hln : l = n := by omega
      subst hln
      have hlen : (eigsFlat l).length = 2 * l - 1 := eigsFlat_length l (by omega)
      have hidx : 2 * l - (eigsFlat l).length = 1 := by omega
      rw [List.getD_eq_getElem?_getD, List.getElem?_append_right (by omega),
        hidx, ← List.getD_eq_getElem?_getD]
      have hne : l ≠ 0 := by omega
      simp [eigBlock, perLevelMult, hne]

/-- **C3.** For odd `num`, `Circle.get_eigenvalues(num)` is a `[num, 1]`
column whose entry `i` equals `l(i)²`, where `l(i) = (i+1)/2` is the level of
eigenfunction `i` in the level-major order in which `__call__` emits the
basis functions (levels repeated once per eigenfunction within the level);
correspondingly basis column `i` is one of level `l(i)`'s functions. -/
theorem circle_eigenvalues_correspond (num : ℕ) (hodd : num % 2 = 1)
    (i : ℕ) (hi : i < num) :
    (circleGetEigenvalues num).length = num ∧
    (circleGetEigenvalues num).getD i [] = [(((i + 1) / 2 : ℕ) : ℝ) ^ 2] ∧
    (∀ θ : ℝ, (sinCosRow (numLevels num) θ).getD i 0 ∈ sinCosBlock θ ((i + 1) / 2)) := by
  have hL : 0 < numLevels num := by simp [numLevels]
  have hflatlen : (eigsFlat (numLevels num)).length = num := by
    rw [eigsFlat_length _ hL]
    simp only [numLevels]
    omega
  have hlen : (circleGetEigenvalues num).length = num := by
    rw [circleGetEigenvalues_eq]
    simp [hflatlen]
  have hentry : (circleGetEigenvalues num).getD i [] = [(eigsFlat (numLevels num)).getD i 0] := by
    rw [circleGetEigenvalues_eq]
    exact getD_map_of_lt _ _ i 0 [] (by rw [hflatlen]; exact hi)
  refine ⟨hlen, ?_, ?_⟩
  · rw [hentry]
    by_cases hi0 : i = 0
    · subst hi0
      rw [eigsFlat_getD_zero _ hL]
      norm_num
    · set l := (i + 1) / 2 with hldef
      have hl1 : 1 ≤ l := by omega
      by_cases hpar : i % 2 = 1
      · have hieq : i = 2 * l - 1 := by omega
        have hlL : l < numLevels num := by simp only [numLevels]; omega
        rw [hieq, eigsFlat_getD_fst _ l hl1 hlL]
      · have hieq : i = 2 * l := by omega
        have hlL : l < numLevels num := by simp only [numLevels]; omega
        rw [hieq, eigsFlat_getD_snd _ l hl1 hlL]
  · intro θ
    by_cases hi0 : i = 0
    · subst hi0
      rw [sinCosRow_getD_zero _ θ hL]
      simp [sinCosBlock]
    · set l := (i + 1) / 2 with hldef
      have hl1 : 1 ≤ l := by omega
      have hne : l ≠ 0 := by omega
      by_cases hpar : i % 2 = 1
      · have hieq : i = 2 * l - 1 := by omega
        have hlL : l < numLevels num := by simp only [numLevels]; omega
        rw [hieq, sinCosRow_getD_cos _ l θ hl1 hlL]
        simp [sinCosBlock, hne]
      · have hieq : i = 2 * l := by omega
        have hlL : l < numLevels num := by simp only [numLevels]; omega
        rw [hieq, sinCosRow_getD_sin _ l θ hl1 hlL]
        simp [sinCosBlock, hne]

/-- Witness for `circle_eigenvalues_correspond` at `num = 5`, `i = 3`
(eigenfunction 3 lives in level 2, eigenvalue `2² = 4`). -/
theorem circle_eigenvalues_correspond_witness :
    5 % 2 = 1 ∧ 3 < 5 ∧
    ((circleGetEigenvalues 5).length = 5 ∧
    (circleGetEigenvalues 5).getD 3 [] = [(((3 + 1) / 2 : ℕ) : ℝ) ^ 2] ∧
    (∀ θ : ℝ, (sinCosRow (numLevels 5) θ).getD 3 0 ∈ sinCosBlock θ ((3 + 1) / 2))) :=
  ⟨by norm_num, by norm_num, circle_eigenvalues_correspond 5 (by norm_num) 3 (by norm_num)⟩

/-! ## Graph (graph.py) -/

/-- `np.finfo(float).eps`: the machine epsilon of IEEE double precision. -/
def numpyEps : ℚ := 1 / 2 ^ 52

/-- Modelled from the spec: `set_value` (geometric_kernels.lab_extras, not
under src/) writes the given value at the given index of a vector; graph.py
lines 62-64 use it to put machine epsilon at index 0 of the eigenvalue
vector, the clamp of the smallest eigenvalue described in spec §4.4. -/
def set_value (xs : List ℚ) (i : ℕ) (v : ℚ) : List ℚ := xs.set i v

/-- An eigensolver, standing for `eigenpairs` (geometric_kernels.lab_extras,
not under src/): maps a requested size `num` to a pair of an eigenvalue
vector and an eigenvector matrix.  Kept abstract: `Graph.get_eigensystem`
treats it as a black box. -/
def Solver : Type := ℕ → List ℚ × List (List ℚ)

/-- The mutable state of a `Graph` instance relevant to `get_eigensystem`:
the memoization cache `self.cache` (an association list keyed by `num`,
holding `(eigenvectors, eigenvalues)` pairs) together with a count of
eigensolver invocations used to express the at-most-once property. -/
structure GraphState where
  cache : List (ℕ × (List (List ℚ) × List (List ℚ)))
  solverCalls : ℕ

/-- `Graph.get_eigensystem` (graph.py lines 49-68): on a cache miss, call the
eigensolver, overwrite eigenvalue 0 with machine epsilon, reshape the
eigenvalues to a `[num, 1]` column, store the pair under key `num`, and
return it; on a hit, return the cached pair unchanged. -/
def getEigensystem (solver : Solver) (st : GraphState) (num : ℕ) :
    (List (List ℚ) × List (List ℚ)) × GraphState :=
  match st.cache.lookup num with
  | some pair => (pair, st)
  | none =>
      let p := solver num
      let evals := set_value p.1 0 numpyEps
      let entry := (p.2, evals.map fun v => [v])
      (entry, ⟨(num, entry) :: st.cache, st.solverCalls + 1⟩)

/-- `Graph.get_eigenvalues` (graph.py lines 87-92): the second component of
`get_eigensystem`. -/
def getEigenvalues (solver : Solver) (st : GraphState) (num : ℕ) :
    List (List ℚ) × GraphState :=
  ((getEigensystem solver st num).1.2, (getEigensystem solver st num).2)

/-- `Graph.get_repeated_eigenvalues` (graph.py lines 94-99): returns
`self.get_eigenvalues(num)`. -/
def getRepeatedEigenvalues (solver : Solver) (st : GraphState) (num : ℕ) :
    List (List ℚ) × GraphState :=
  getEigenvalues solver st num

/-- A sequence of `get_eigensystem` requests against one `Graph` instance,
threading the cache state. -/
def runCalls (solver : Solver) (st : GraphState) : List ℕ → GraphState
  | [] => st
  | n :: rest => runCalls solver (getEigensystem solver st n).2 rest

theorem getEigensystem_cached (solver : Solver) (st : GraphState) (num : ℕ)
    (p : List (List ℚ) × List (List ℚ)) (h : st.cache.lookup num = some p) :
    getEigensystem solver st num = (p, st) := by
  simp [getEigensystem, h]

theorem getEigensystem_lookup_self (solver : Solver) (st : GraphState) (num : ℕ) :
    ((getEigensystem solver st num).2).cache.lookup num =
      some (getEigensystem solver st num).1 := by
  cases h : st.cache.lookup num with
  | some p => simp [getEigensystem, h]
  | none => simp [getEigensystem, h, List.lookup]

theorem getEigensystem_preserves (solver : Solver) (st : GraphState) (num j : ℕ)
    (q : List (List ℚ) × List (List ℚ)) (h : st.cache.lookup j = some q) :
    ((getEigensystem solver st num).2).cache.lookup j = some q := by
  cases hc : st.cache.lookup num with
  | some p => simp [getEigensystem, hc, h]
  | none =>
      have hne : j ≠ num := by
        intro he
        rw [he] at h
        rw [h] at hc
        exact Option.noConfusion hc
      have hb : (j == num) = false := beq_false_of_ne hne
      simp [getEigensystem, hc, List.lookup, hb, h]

theorem runCalls_cached (solver : Solver) (st : GraphState) (num : ℕ) (k : ℕ)
    (p : List (List ℚ) × List (List ℚ)) (h : st.cache.lookup num = some p) :
    runCalls solver st (List.replicate k num) = st := by
  induction k with
  | zero => rfl
  | succ m ih =>
      rw [List.replicate_succ]
      show runCalls solver (getEigensystem solver st num).2 (List.replicate m num) = st
      rw [getEigensystem_cached solver st num p h]
      exact ih

/-- **C4.** `Graph.get_eigensystem` is a pure memoization: a call stores its
pair in the cache under `num`, a repeated call returns exactly the cached
pair without touching the state, existing cache entries are never modified,
a cached `num` is answered from the cache with no solver invocation, and any
run of `k` further requests for the same `num` leaves the state (and hence
the solver-invocation count) unchanged — at most one eigendecomposition per
distinct `num` for the lifetime of the object. -/
theorem graph_eigensystem_memoized (solver : Solver) (st : GraphState) (num k : ℕ) :
    (getEigensystem solver (getEigensystem solver st num).2 num =
      ((getEigensystem solver st num).1, (getEigensystem solver st num).2)) ∧
    ((getEigensystem solver st num).2).cache.lookup num =
      some (getEigensystem solver st num).1 ∧
    (∀ p, st.cache.lookup num = some p →
      getEigensystem solver st num = (p, st)) ∧
    (∀ j q, st.cache.lookup j = some q →
      ((getEigensystem solver st num).2).cache.lookup j = some q) ∧
    runCalls solver (getEigensystem solver st num).2 (List.replicate k num) =
      (getEigensystem solver st num).2 ∧
    (getEigensystem solver st num).2.solverCalls ≤ st.solverCalls + 1 := by
  refine ⟨?_, getEigensystem_lookup_self solver st num,
    fun p h => getEigensystem_cached solver st num p h,
    fun j q h => getEigensystem_preserves solver st num j q h, ?_, ?_⟩
  · exact getEigensystem_cached solver _ num _ (getEigensystem_lookup_self solver st num)
  · exact runCalls_cached solver _ num k _ (getEigensystem_lookup_self solver st num)
  · cases hc : st.cache.lookup num with
    | some p => simp [getEigensystem, hc]
    | none => simp [getEigensystem, hc]

/-- Witness for `graph_eigensystem_memoized` at a concrete solver, the empty
cache, `num = 2` and `k = 3`. -/
theorem graph_eigensystem_memoized_witness :
    (getEigensystem (fun _ => ([0, 2], [[1, 0], [0, 1]])) ⟨[], 0⟩ 2).2.solverCalls ≤ 0 + 1 ∧
    runCalls (fun _ => ([0, 2], [[1, 0], [0, 1]]))
        (getEigensystem (fun _ => ([0, 2], [[1, 0], [0, 1]])) ⟨[], 0⟩ 2).2
        (List.replicate 3 2) =
      (getEigensystem (fun _ => ([0, 2], [[1, 0], [0, 1]])) ⟨[], 0⟩ 2).2 :=
  ⟨(graph_eigensystem_memoized (fun _ => ([0, 2], [[1, 0], [0, 1]])) ⟨[], 0⟩ 2 3).2.2.2.2.2,
   (graph_eigensystem_memoized (fun _ => ([0, 2], [[1, 0], [0, 1]])) ⟨[], 0⟩ 2 3).2.2.2.2.1⟩

theorem getEigenvalues_miss (solver : Solver) (st : GraphState) (num : ℕ)
    (hmiss : st.cache.lookup num = none) :
    (getEigenvalues solver st num).1 =
      (set_value (solver num).1 0 numpyEps).map fun v => [v] := by
  simp [getEigenvalues, getEigensystem, hmiss]

/-- **C5.** When a `Graph` built from a connected graph computes its
eigensystem (its true smallest Laplacian eigenvalue being 0, reported at
index 0 by the solver), the first entry of `get_eigenvalues(num)` is exactly
machine epsilon — in particular strictly positive, never 0 — and the clamped
vector is what gets cached. -/
theorem graph_smallest_eigenvalue_clamped (solver : Solver) (st : GraphState) (num : ℕ)
    (hmiss : st.cache.lookup num = none)
    (hlen : 0 < (solver num).1.length)
    (hzero : (solver num).1.getD 0 0 = 0) :
    (getEigenvalues solver st num).1.getD 0 [] = [numpyEps] ∧
    0 < numpyEps ∧
    ((getEigenvalues solver st num).2).cache.lookup num =
      some ((solver num).2, (set_value (solver num).1 0 numpyEps).map fun v => [v]) := by
  refine ⟨?_, by norm_num [numpyEps], ?_⟩
  · rw [getEigenvalues_miss solver st num hmiss]
    rw [getD_map_of_lt _ _ 0 0 [] (by simpa [set_value] using hlen)]
    rw [set_value, List.getD_eq_getElem?_getD, List.getElem?_set_self (by simpa using hlen)]
    rfl
  · simp [getEigenvalues, getEigensystem, hmiss, set_value, List.lookup]

/-- Witness for `graph_smallest_eigenvalue_clamped`: a solver reporting
eigenvalues `[0, 2]` on the empty cache. -/
theorem graph_smallest_eigenvalue_clamped_witness :
    (getEigenvalues (fun _ => ([0, 2], [[1]])) ⟨[], 0⟩ 2).1.getD 0 [] = [numpyEps] ∧
    0 < numpyEps ∧
    ((getEigenvalues (fun _ => ([0, 2], [[1]])) ⟨[], 0⟩ 2).2).cache.lookup 2 =
      some (((fun _ : ℕ => (([0, 2] : List ℚ), ([[1]] : List (List ℚ)))) 2).2,
        (set_value ((fun _ : ℕ => (([0, 2] : List ℚ), ([[1]] : List (List ℚ)))) 2).1 0
            numpyEps).map fun v => [v]) :=
  graph_smallest_eigenvalue_clamped (fun _ => ([0, 2], [[1]])) ⟨[], 0⟩ 2 rfl
    (by norm_num) rfl

/-- **C10.** The first call of `get_eigensystem(num)` overwrites the
eigenvalue at index 0 with machine epsilon unconditionally — whatever value
the eigensolver returned there — and leaves every entry at index `i ≥ 1`
exactly as the solver produced it (so additional exact-zero eigenvalues of a
disconnected graph's Laplacian at `i ≥ 1` are returned as 0, unclamped). -/
theorem graph_clamp_only_index_zero (solver : Solver) (st : GraphState) (num : ℕ)
    (hmiss : st.cache.lookup num = none)
    (hlen : 0 < (solver num).1.length) :
    (getEigenvalues solver st num).1.getD 0 [] = [numpyEps] ∧
    (∀ i, 1 ≤ i → i < (solver num).1.length →
      (getEigenvalues solver st num).1.getD i [] = [(solver num).1.getD i 0]) := by
  constructor
  · rw [getEigenvalues_miss solver st num hmiss]
    rw [getD_map_of_lt _ _ 0 0 [] (by simpa [set_value] using hlen)]
    rw [set_value, List.getD_eq_getElem?_getD, List.getElem?_set_self (by simpa using hlen)]
    rfl
  · intro i hi1 hilen
    rw [getEigenvalues_miss solver st num hmiss]
    rw [getD_map_of_lt _ _ i 0 [] (by simpa [set_value] using hilen)]
    rw [set_value, List.getD_eq_getElem?_getD, List.getElem?_set_ne (by omega),
      ← List.getD_eq_getElem?_getD]

/-- Witness for `graph_clamp_only_index_zero`: a solver reporting
eigenvalues `[5, 0]` — index 0 is overwritten with epsilon although it was
not 0, and the exact zero at index 1 is returned unclamped. -/
theorem graph_clamp_only_index_zero_witness :
    (getEigenvalues (fun _ => ([5, 0], [[1]])) ⟨[], 0⟩ 1).1.getD 0 [] = [numpyEps] ∧
    (∀ i, 1 ≤ i → i < ((fun _ : ℕ => (([5, 0] : List ℚ), ([[1]] : List (List ℚ)))) 1).1.length →
      (getEigenvalues (fun _ => ([5, 0], [[1]])) ⟨[], 0⟩ 1).1.getD i [] =
        [((fun _ : ℕ => (([5, 0] : List ℚ), ([[1]] : List (List ℚ)))) 1).1.getD i 0]) :=
  graph_clamp_only_index_zero (fun _ => ([5, 0], [[1]])) ⟨[], 0⟩ 1 rfl (by norm_num)

/-- **C9.** `Graph.get_repeated_eigenvalues` is a pure alias of
`Graph.get_eigenvalues`: same returned value, same state effect, both a thin
projection of `get_eigensystem`. -/
theorem graph_repeated_eigenvalues_alias (solver : Solver) (st : GraphState) (num : ℕ) :
    getRepeatedEigenvalues solver st num = getEigenvalues solver st num ∧
    (getEigenvalues solver st num).1 = (getEigensystem solver st num).1.2 ∧
    (getEigenvalues solver st num).2 = (getEigensystem solver st num).2 :=
  ⟨rfl, rfl, rfl⟩

/-! ## Graph constructor checks (graph.py `__init__` / `_checks`) -/

/-- A numpy-style array: an explicit shape plus row-major flat data. -/
structure NDArray where
  shape : List ℕ
  data : List ℚ

/-- The `[i, j]` entry of a 2-D array in row-major layout. -/
def matEntry (a : NDArray) (i j : ℕ) : ℚ :=
  a.data.getD (i * a.shape.getD 1 0 + j) 0

/-- The first assertion of `Graph._checks` (graph.py lines 35-37):
`len(B.shape(adjacency)) == 2 and adjacency.shape[0] == adjacency.shape[1]`. -/
def squareCheck (a : NDArray) : Bool :=
  a.shape.length == 2 && a.shape.getD 0 0 == a.shape.getD 1 0

/-- The second assertion of `Graph._checks` (graph.py line 40):
`B.any(adjacency != B.T(adjacency))`, the any-mismatch reduction between the
matrix and its transpose over all index pairs. -/
def symmetryMismatch (a : NDArray) : Bool :=
  (List.range (a.shape.getD 0 0)).any fun i =>
    (List.range (a.shape.getD 1 0)).any fun j =>
      decide (matEntry a i j ≠ matEntry a j i)

/-- Modelled from the spec: `degree` (geometric_kernels.lab_extras, not under
src/) is "the diagonal degree matrix" (spec §4.4, glossary), whose `i`-th
diagonal entry is the sum of row `i` of the adjacency matrix. -/
def rowDegree (a : NDArray) (i : ℕ) : ℚ :=
  ((List.range (a.shape.getD 1 0)).map (matEntry a i)).sum

/-- `Graph.set_laplacian` (graph.py lines 46-47): `degree(adjacency) -
adjacency`, as an entrywise function. -/
def graphLaplacian (a : NDArray) : ℕ → ℕ → ℚ := fun i j =>
  (if i = j then rowDegree a i else 0) - matEntry a i j

/-- A constructed `Graph`: only the Laplacian survives construction. -/
structure GraphObj where
  laplacian : ℕ → ℕ → ℚ

/-- `Graph.__init__` (graph.py lines 23-31): runs `_checks` — the square
assertion, then the symmetry assertion — and only if both pass builds the
Laplacian; an assertion failure aborts construction before `set_laplacian`. -/
def graphInit (a : NDArray) : Except String GraphObj :=
  if ¬ squareCheck a then .error "Matrix is not square."
  else if symmetryMismatch a then .error "Adjacency is not symmetric."
  else .ok ⟨graphLaplacian a⟩

theorem squareCheck_iff (a : NDArray) :
    squareCheck a = true ↔ (a.shape.length = 2 ∧ a.shape.getD 0 0 = a.shape.getD 1 0) := by
  simp [squareCheck]

theorem symmetryMismatch_iff (a : NDArray) :
    symmetryMismatch a = true ↔
      ∃ i j, i < a.shape.getD 0 0 ∧ j < a.shape.getD 1 0 ∧
        matEntry a i j ≠ matEntry a j i := by
  simp only [symmetryMismatch, List.any_eq_true, List.mem_range, decide_eq_true_eq]
  constructor
  · rintro ⟨i, hi, j, hj, hne⟩
    exact ⟨i, j, hi, hj, hne⟩
  · rintro ⟨i, j, hi, hj, hne⟩
    exact ⟨i, hi, j, hj, hne⟩

/-- **C6.** Constructing a `Graph` fails with the shape-precondition error
for every adjacency matrix that is not 2-D and square, and with the
symmetry-precondition error for every square matrix differing anywhere from
its transpose; a successful construction implies both preconditions held and
only then is the Laplacian `degree - adjacency` built. -/
theorem graph_init_checks (a : NDArray) :
    (¬ (a.shape.length = 2 ∧ a.shape.getD 0 0 = a.shape.getD 1 0) →
      graphInit a = .error "Matrix is not square.") ∧
    (a.shape.length = 2 → a.shape.getD 0 0 = a.shape.getD 1 0 →
      (∃ i j, i < a.shape.getD 0 0 ∧ j < a.shape.getD 1 0 ∧
        matEntry a i j ≠ matEntry a j i) →
      graphInit a = .error "Adjacency is not symmetric.") ∧
    (∀ g, graphInit a = .ok g →
      (a.shape.length = 2 ∧ a.shape.getD 0 0 = a.shape.getD 1 0) ∧
      (∀ i j, i < a.shape.getD 0 0 → j < a.shape.getD 1 0 →
        matEntry a i j = matEntry a j i) ∧
      g.laplacian = graphLaplacian a) := by
  refine ⟨?_, ?_, ?_⟩
  · intro h
    have hb : ¬ squareCheck a = true := by rw [squareCheck_iff]; exact h
    simp [graphInit, hb]
  · intro h1 h2 hex
    have hsq : squareCheck a = true := (squareCheck_iff a).mpr ⟨h1, h2⟩
    have hmm : symmetryMismatch a = true := (symmetryMismatch_iff a).mpr hex
    simp [graphInit, hsq, hmm]
  · intro g hok
    by_cases hsq : squareCheck a = true
    · by_cases hmm : symmetryMismatch a = true
      · simp [graphInit, hsq, hmm] at hok
      · have hg : g = ⟨graphLaplacian a⟩ := by
          have := hok
          simp [graphInit, hsq, hmm] at this
          exact this.symm
        refine ⟨(squareCheck_iff a).mp hsq, ?_, by rw [hg]⟩
        intro i j hi hj
        by_contra hne
        exact hmm ((symmetryMismatch_iff a).mpr ⟨i, j, hi, hj, hne⟩)
    · simp [graphInit, hsq] at hok

/-- Witness for `graph_init_checks`: a non-square `[2, 3]` array is rejected
with the shape error, and the asymmetric `[[0, 1], [0, 0]]` is rejected with
the symmetry error. -/
theorem graph_init_checks_witness :
    graphInit ⟨[2, 3], [0, 0, 0, 0, 0, 0]⟩ = .error "Matrix is not square." ∧
    graphInit ⟨[2, 2], [0, 1, 0, 0]⟩ = .error "Adjacency is not symmetric." :=
  ⟨(graph_init_checks ⟨[2, 3], [0, 0, 0, 0, 0, 0]⟩).1 (by decide),
   (graph_init_checks ⟨[2, 2], [0, 1, 0, 0]⟩).2.1 rfl rfl
     ⟨0, 1, by norm_num, by norm_num, by decide⟩⟩

end GeometricKernels
